import Mathlib

/-!
Verification of the xtream IPTV front-end core (scripts/stream.js and
src/pages/api/proxy.ts), shallowly embedded in Lean.

JavaScript strings are modelled as lists of Unicode code points
(`JStr := List Nat`).  External/built-in behaviour (the `String.normalize`
NFKD tables, `toLowerCase`, the WHATWG `URL` constructor, locale collation)
is modelled at the fidelity the embedded code observes, with the modelling
choices documented at each definition.  Everything lives in the `Xtream`
namespace to avoid clashes with Mathlib names.
-/

namespace Xtream

/-- A JavaScript string, as its sequence of Unicode code points. -/
abbrev JStr := List Nat

/-- Code points of a Lean string literal, for writing concrete JS strings. -/
def jstr (s : String) : JStr := s.data.map Char.toNat

/-! ## Text normalizer (stream.js `normalize`)

`normalize = (s) => (s || '').toString().normalize('NFKD')
   .replace(/[̀-ͯ]/g, '').toLowerCase()
   .replace(/[|_\-()[\].,:/\\]+/g, ' ').replace(/\s+/g, ' ').trim()` -/

/-- Modelled: the Unicode NFKD decomposition table, restricted to a
representative set of precomposed Latin letters (the full table is a browser
built-in).  As in Unicode, every key is outside the ASCII range and every
decomposition is fully decomposed: its code points are never themselves keys. -/
def nfkdTable : List (Nat × List Nat) :=
  [ (0xC0, [0x41, 0x300]), (0xC1, [0x41, 0x301]), (0xC2, [0x41, 0x302]),
    (0xC3, [0x41, 0x303]), (0xC4, [0x41, 0x308]), (0xC5, [0x41, 0x30A]),
    (0xC7, [0x43, 0x327]), (0xC8, [0x45, 0x300]), (0xC9, [0x45, 0x301]),
    (0xCA, [0x45, 0x302]), (0xCB, [0x45, 0x308]), (0xCC, [0x49, 0x300]),
    (0xCD, [0x49, 0x301]), (0xCE, [0x49, 0x302]), (0xCF, [0x49, 0x308]),
    (0xD1, [0x4E, 0x303]), (0xD2, [0x4F, 0x300]), (0xD3, [0x4F, 0x301]),
    (0xD4, [0x4F, 0x302]), (0xD5, [0x4F, 0x303]), (0xD6, [0x4F, 0x308]),
    (0xD9, [0x55, 0x300]), (0xDA, [0x55, 0x301]), (0xDB, [0x55, 0x302]),
    (0xDC, [0x55, 0x308]), (0xDD, [0x59, 0x301]),
    (0xE0, [0x61, 0x300]), (0xE1, [0x61, 0x301]), (0xE2, [0x61, 0x302]),
    (0xE3, [0x61, 0x303]), (0xE4, [0x61, 0x308]), (0xE5, [0x61, 0x30A]),
    (0xE7, [0x63, 0x327]), (0xE8, [0x65, 0x300]), (0xE9, [0x65, 0x301]),
    (0xEA, [0x65, 0x302]), (0xEB, [0x65, 0x308]), (0xEC, [0x69, 0x300]),
    (0xED, [0x69, 0x301]), (0xEE, [0x69, 0x302]), (0xEF, [0x69, 0x308]),
    (0xF1, [0x6E, 0x303]), (0xF2, [0x6F, 0x300]), (0xF3, [0x6F, 0x301]),
    (0xF4, [0x6F, 0x302]), (0xF5, [0x6F, 0x303]), (0xF6, [0x6F, 0x308]),
    (0xF9, [0x75, 0x300]), (0xFA, [0x75, 0x301]), (0xFB, [0x75, 0x302]),
    (0xFC, [0x75, 0x308]), (0xFD, [0x79, 0x301]), (0xFF, [0x79, 0x308]) ]

/-- NFKD decomposition of a single code point (identity off the table). -/
def nfkdCode (n : Nat) : List Nat := (nfkdTable.lookup n).getD [n]

/-- `String.prototype.normalize('NFKD')`. -/
def nfkd (l : JStr) : JStr := l.flatMap nfkdCode

/-- The combining diacritical marks stripped by `replace(/[̀-ͯ]/g,'')`. -/
def isMark (n : Nat) : Bool := 0x300 ≤ n && n ≤ 0x36F

/-- `replace(/[̀-ͯ]/g, '')`. -/
def stripMarks (l : JStr) : JStr := l.filter (fun n => !isMark n)

/-- Modelled: `toLowerCase()` restricted to its ASCII action (accented
letters are decomposed to ASCII before this step runs). -/
def lowerCode (n : Nat) : Nat := if 65 ≤ n && n ≤ 90 then n + 32 else n

/-- `toLowerCase()` over a whole string. -/
def lowerAll (l : JStr) : JStr := l.map lowerCode

/-- The separator class of `replace(/[|_\-()[\].,:/\\]+/g, ' ')`:
`| _ - ( ) [ ] . , : / \`. -/
def isSep (n : Nat) : Bool :=
  n == 0x7C || n == 0x5F || n == 0x2D || n == 0x28 || n == 0x29 ||
  n == 0x5B || n == 0x5D || n == 0x2E || n == 0x2C || n == 0x3A ||
  n == 0x2F || n == 0x5C

/-- Separator replacement.  The source replaces each maximal separator run by
one space; since the very next step collapses whitespace runs, replacing each
separator code point by a space yields the same final string. -/
def sepToSpace (l : JStr) : JStr := l.map (fun n => if isSep n then 32 else n)

/-- JavaScript regex `\s` (also the set trimmed by `trim()`). -/
def isWs (n : Nat) : Bool :=
  n == 9 || n == 10 || n == 11 || n == 12 || n == 13 || n == 32 ||
  n == 0xA0 || n == 0x1680 || (0x2000 ≤ n && n ≤ 0x200A) ||
  n == 0x2028 || n == 0x2029 || n == 0x202F || n == 0x205F ||
  n == 0x3000 || n == 0xFEFF

/-- One step of whitespace collapsing, building the result from the right:
whitespace before the end or before more whitespace is dropped or merged
into a single plain space. -/
def squishStep (n : Nat) (acc : JStr) : JStr :=
  if isWs n then
    match acc with
    | [] => []
    | m :: _ => if m == 32 then acc else 32 :: acc
  else n :: acc

/-- `replace(/\s+/g, ' ').trim()`: collapse whitespace runs to single spaces
and strip them from both ends. -/
def squish (l : JStr) : JStr :=
  (l.foldr squishStep []).dropWhile (fun n => n == 32)

/-- stream.js `normalize`: NFKD-decompose, strip combining marks, lower-case,
replace separators by spaces, collapse whitespace, trim. -/
def normalize (l : JStr) : JStr :=
  squish (sepToSpace (lowerAll (stripMarks (nfkd l))))

/-! ### Structure of squished strings -/

/-- A string is squished when every whitespace in it is a plain space, no two
spaces are adjacent, and it does not end with a space. -/
def squished : JStr → Bool
  | [] => true
  | [n] => !isWs n
  | a :: b :: rest => (if a == 32 then !(b == 32) else !isWs a) && squished (b :: rest)

/-- A string that does not begin with a space. -/
def noLead32 : JStr → Bool
  | [] => true
  | n :: _ => !(n == 32)

theorem not_beq32_of_not_ws {n : Nat} (h : isWs n = false) : (n == 32) = false := by
  cases h32 : n == 32 with
  | true =>
    have hn : n = 32 := by simpa using h32
    subst hn
    simp [isWs] at h
  | false => rfl

theorem squished_tail {b : Nat} {rest : JStr} (h : squished (b :: rest) = true) :
    squished rest = true := by
  cases rest with
  | nil => rfl
  | cons c r =>
    simp only [squished, Bool.and_eq_true] at h
    exact h.2

theorem squished_foldr (l : JStr) : squished (l.foldr squishStep []) = true := by
  induction l with
  | nil => rfl
  | cons n l ih =>
    simp only [List.foldr_cons]
    cases hacc : l.foldr squishStep [] with
    | nil =>
      cases hws : isWs n with
      | true =>
        have hstep : squishStep n [] = [] := by simp [squishStep, hws]
        rw [hstep]
        rfl
      | false => simp [squishStep, hws, squished]
    | cons m r =>
      rw [hacc] at ih
      cases hws : isWs n with
      | true =>
        cases hm : m == 32 with
        | true => simpa [squishStep, hws, hm] using ih
        | false => simp [squishStep, hws, hm, squished, ih]
      | false =>
        have hn32 : (n == 32) = false := not_beq32_of_not_ws hws
        simp [squishStep, hws, hn32, squished, ih]

theorem squished_dropWhile32 {l : JStr} (h : squished l = true) :
    squished (l.dropWhile (fun n => n == 32)) = true := by
  induction l with
  | nil => exact h
  | cons n r ih =>
    cases hn : n == 32 with
    | true =>
      rw [List.dropWhile_cons, if_pos (by simpa using hn)]
      exact ih (squished_tail h)
    | false =>
      rw [List.dropWhile_cons, if_neg (by simp [hn])]
      exact h

theorem noLead32_dropWhile (l : JStr) :
    noLead32 (l.dropWhile (fun n => n == 32)) = true := by
  induction l with
  | nil => rfl
  | cons n r ih =>
    cases hn : n == 32 with
    | true =>
      rw [List.dropWhile_cons, if_pos (by simpa using hn)]
      exact ih
    | false =>
      rw [List.dropWhile_cons, if_neg (by simp [hn])]
      simpa [noLead32] using hn

theorem foldr_squishStep_fixed {l : JStr} (h : squished l = true) :
    l.foldr squishStep [] = l := by
  induction l with
  | nil => rfl
  | cons a r ih =>
    cases r with
    | nil =>
      have ha : isWs a = false := by simpa [squished] using h
      simp [squishStep, ha]
    | cons b r' =>
      simp only [squished, Bool.and_eq_true] at h
      obtain ⟨h1, h2⟩ := h
      have hr : (b :: r').foldr squishStep [] = b :: r' := ih (by simpa [squished] using h2)
      simp only [List.foldr_cons] at hr ⊢
      rw [hr]
      cases ha : a == 32 with
      | true =>
        rw [ha] at h1
        have hb : (b == 32) = false := by simpa using h1
        have ha' : a = 32 := by simpa using ha
        subst ha'
        simp [squishStep, hb, isWs]
      | false =>
        rw [ha] at h1
        have haws : isWs a = false := by simpa using h1
        simp [squishStep, haws]

theorem dropWhile32_of_noLead {l : JStr} (h : noLead32 l = true) :
    l.dropWhile (fun n => n == 32) = l := by
  cases l with
  | nil => rfl
  | cons n r =>
    simp only [noLead32] at h
    rw [List.dropWhile_cons, if_neg (by simpa using h)]

theorem squish_fixed {l : JStr} (h1 : squished l = true) (h2 : noLead32 l = true) :
    squish l = l := by
  unfold squish
  rw [foldr_squishStep_fixed h1, dropWhile32_of_noLead h2]

theorem squished_squish (l : JStr) : squished (squish l) = true :=
  squished_dropWhile32 (squished_foldr l)

theorem noLead32_squish (l : JStr) : noLead32 (squish l) = true :=
  noLead32_dropWhile _

theorem squish_squish (l : JStr) : squish (squish l) = squish l :=
  squish_fixed (squished_squish l) (noLead32_squish l)

/-! ### Code points of a normalized string are fixed by every stage -/

theorem nfkdTable_keys_large : ∀ p ∈ nfkdTable, 0xC0 ≤ p.1 := by decide

theorem nfkdTable_out_small :
    ∀ p ∈ nfkdTable, ∀ d ∈ p.2, isMark d = true ∨ d < 0xC0 := by decide

theorem lookup_none (k : Nat) (t : List (Nat × List Nat))
    (h : ∀ p ∈ t, p.1 ≠ k) : t.lookup k = none := by
  induction t with
  | nil => rfl
  | cons p t ih =>
    obtain ⟨a, b⟩ := p
    have ha : a ≠ k := h (a, b) (by simp)
    have hb : (k == a) = false := by simpa using (Ne.symm ha)
    simp only [List.lookup, hb]
    exact ih (fun q hq => h q (by simp [hq]))

theorem mem_of_lookup {t : List (Nat × List Nat)} {k : Nat} {v : List Nat}
    (h : t.lookup k = some v) : (k, v) ∈ t := by
  induction t with
  | nil => simp [List.lookup] at h
  | cons p t ih =>
    obtain ⟨a, b⟩ := p
    cases hk : k == a with
    | true =>
      simp only [List.lookup, hk] at h
      have hak : k = a := by simpa using hk
      subst hak
      cases h
      simp
    | false =>
      simp only [List.lookup, hk] at h
      exact List.mem_cons_of_mem _ (ih h)

theorem nfkdCode_fixed_of_small {n : Nat} (h : n < 0xC0) : nfkdCode n = [n] := by
  unfold nfkdCode
  rw [lookup_none n nfkdTable (fun p hp => by
    have := nfkdTable_keys_large p hp; omega)]
  rfl

theorem lowerCode_spec (e : Nat) :
    (65 ≤ e ∧ e ≤ 90 ∧ lowerCode e = e + 32) ∨ (¬(65 ≤ e ∧ e ≤ 90) ∧ lowerCode e = e) := by
  unfold lowerCode
  split
  next h =>
    simp only [Bool.and_eq_true, decide_eq_true_eq] at h
    exact Or.inl ⟨h.1, h.2, rfl⟩
  next h =>
    simp only [Bool.and_eq_true, decide_eq_true_eq, not_and] at h
    refine Or.inr ⟨?_, rfl⟩
    intro hc
    exact absurd (h hc.1) (by omega)

theorem isMark_eq (n : Nat) : isMark n = decide (0x300 ≤ n ∧ n ≤ 0x36F) := by
  unfold isMark
  by_cases h : 0x300 ≤ n ∧ n ≤ 0x36F
  · simp [h.1, h.2]
  · rw [decide_eq_false h]
    rcases Nat.lt_or_ge n 0x300 with hl | hg
    · simp [Nat.not_le.mpr hl]
    · have hh : ¬ n ≤ 0x36F := by
        intro hle
        exact h ⟨hg, hle⟩
      simp [hh]

/-- A code point produced by decomposing `a` is, once marks are stripped,
either a small (pre-`0xC0`) code point or one the table does not touch. -/
theorem nfkd_out_cases {a e : Nat} (he : e ∈ nfkdCode a) (hm : isMark e = false) :
    e < 0xC0 ∨ nfkdCode e = [e] := by
  unfold nfkdCode at he
  cases hl : nfkdTable.lookup a with
  | none =>
    rw [hl] at he
    simp only [Option.getD_none, List.mem_singleton] at he
    subst he
    right
    unfold nfkdCode
    rw [hl]
    rfl
  | some v =>
    rw [hl] at he
    simp only [Option.getD_some] at he
    have hmem := mem_of_lookup hl
    rcases nfkdTable_out_small (a, v) hmem e he with h | h
    · rw [hm] at h
      cases h
    · exact Or.inl h

/-! Membership extraction through each pipeline stage. -/

theorem mem_foldr_squish {n : Nat} {l : JStr} (h : n ∈ l.foldr squishStep []) :
    n = 32 ∨ (n ∈ l ∧ isWs n = false) := by
  induction l with
  | nil => cases h
  | cons a l ih =>
    simp only [List.foldr_cons] at h
    cases hws : isWs a with
    | true =>
      cases hacc : l.foldr squishStep [] with
      | nil =>
        rw [hacc] at h
        simp [squishStep, hws] at h
      | cons m r =>
        rw [hacc] at h
        cases hm : m == 32 with
        | true =>
          simp only [squishStep, hws, if_true, hm] at h
          rw [← hacc] at h
          rcases ih h with h' | h'
          · exact Or.inl h'
          · exact Or.inr ⟨List.mem_cons_of_mem _ h'.1, h'.2⟩
        | false =>
          simp only [squishStep, hws, if_true, hm, if_false] at h
          rcases List.mem_cons.mp h with h' | h'
          · exact Or.inl h'
          · rw [← hacc] at h'
            rcases ih h' with h'' | h''
            · exact Or.inl h''
            · exact Or.inr ⟨List.mem_cons_of_mem _ h''.1, h''.2⟩
    | false =>
      have hstep : squishStep a (l.foldr squishStep []) =
          a :: l.foldr squishStep [] := by simp [squishStep, hws]
      rw [hstep] at h
      rcases List.mem_cons.mp h with h' | h'
      · subst h'
        exact Or.inr ⟨List.mem_cons_self _ _, hws⟩
      · rcases ih h' with h'' | h''
        · exact Or.inl h''
        · exact Or.inr ⟨List.mem_cons_of_mem _ h''.1, h''.2⟩

theorem mem_squish {n : Nat} {l : JStr} (h : n ∈ squish l) :
    n = 32 ∨ (n ∈ l ∧ isWs n = false) := by
  unfold squish at h
  exact mem_foldr_squish ((List.dropWhile_sublist _).mem h)

/-- Every code point of a fully normalized string is fixed by decomposition,
mark stripping, lower-casing and separator replacement. -/
theorem normalize_mem_spec {l : JStr} {n : Nat} (h : n ∈ normalize l) :
    nfkdCode n = [n] ∧ isMark n = false ∧ lowerCode n = n ∧ isSep n = false := by
  unfold normalize at h
  rcases mem_squish h with h32 | ⟨hmem, _⟩
  · subst h32
    refine ⟨nfkdCode_fixed_of_small (by omega), rfl, rfl, rfl⟩
  · simp only [sepToSpace, List.mem_map] at hmem
    obtain ⟨d, hd, hdn⟩ := hmem
    by_cases hsep : isSep d = true
    · rw [if_pos hsep] at hdn
      subst hdn
      refine ⟨nfkdCode_fixed_of_small (by omega), rfl, rfl, rfl⟩
    · rw [if_neg hsep] at hdn
      subst hdn
      have hsep' : isSep d = false := by
        cases hs : isSep d
        · rfl
        · exact absurd hs hsep
      simp only [lowerAll, List.mem_map] at hd
      obtain ⟨e, he, hed⟩ := hd
      simp only [stripMarks, List.mem_filter] at he
      obtain ⟨he1, he2⟩ := he
      have hemark : isMark e = false := by simpa using he2
      simp only [nfkd, List.mem_flatMap] at he1
      obtain ⟨a, _, hea⟩ := he1
      subst hed
      rcases nfkd_out_cases hea hemark with hsmall | hfix
      · rcases lowerCode_spec e with ⟨hge, hle, heq⟩ | ⟨hrange, heq⟩
        · rw [heq] at hsep' ⊢
          refine ⟨nfkdCode_fixed_of_small (by omega), ?_, ?_, hsep'⟩
          · rw [isMark_eq]
            simp only [decide_eq_false_iff_not, not_and]
            omega
          · rcases lowerCode_spec (e + 32) with ⟨h1, h2, _⟩ | ⟨_, h3⟩
            · omega
            · exact h3
        · rw [heq] at hsep' ⊢
          refine ⟨nfkdCode_fixed_of_small (by omega), hemark, ?_, hsep'⟩
          rcases lowerCode_spec e with ⟨h1, h2, _⟩ | ⟨_, h3⟩
          · exact absurd ⟨h1, h2⟩ hrange
          · exact h3
      · rcases lowerCode_spec e with ⟨hge, hle, heq⟩ | ⟨hrange, heq⟩
        · rw [heq] at hsep' ⊢
          refine ⟨nfkdCode_fixed_of_small (by omega), ?_, ?_, hsep'⟩
          · rw [isMark_eq]
            simp only [decide_eq_false_iff_not, not_and]
            omega
          · rcases lowerCode_spec (e + 32) with ⟨h1, h2, _⟩ | ⟨_, h3⟩
            · omega
            · exact h3
        · rw [heq] at hsep' ⊢
          exact ⟨hfix, hemark, heq, hsep'⟩

/-! Stage-fixedness from elementwise fixedness. -/

theorem flatMap_nfkd_fixed {l : JStr} (h : ∀ n ∈ l, nfkdCode n = [n]) :
    nfkd l = l := by
  unfold nfkd
  induction l with
  | nil => rfl
  | cons a l ih =>
    rw [List.flatMap_cons, h a (List.mem_cons_self _ _),
      ih (fun n hn => h n (List.mem_cons_of_mem _ hn))]
    rfl

theorem map_fixed {f : Nat → Nat} {l : JStr} (h : ∀ n ∈ l, f n = n) :
    l.map f = l := by
  induction l with
  | nil => rfl
  | cons a l ih =>
    rw [List.map_cons, h a (List.mem_cons_self _ _),
      ih (fun n hn => h n (List.mem_cons_of_mem _ hn))]

theorem stripMarks_fixed {l : JStr} (h : ∀ n ∈ l, isMark n = false) :
    stripMarks l = l := by
  unfold stripMarks
  exact List.filter_eq_self.mpr (fun a ha => by simp [h a ha])

theorem normalize_normalize (l : JStr) : normalize (normalize l) = normalize l := by
  conv_lhs => rw [normalize]
  rw [flatMap_nfkd_fixed (fun n hn => (normalize_mem_spec hn).1),
    stripMarks_fixed (fun n hn => (normalize_mem_spec hn).2.1)]
  show squish (sepToSpace (lowerAll (normalize l))) = normalize l
  rw [show lowerAll (normalize l) = normalize l from
      map_fixed (fun n hn => (normalize_mem_spec hn).2.2.1)]
  rw [show sepToSpace (normalize l) = normalize l from
      map_fixed (fun n hn => by simp [(normalize_mem_spec hn).2.2.2])]
  show squish (squish (sepToSpace (lowerAll (stripMarks (nfkd l))))) = _
  exact squish_squish _

/-! ## Substrings and search tokens -/

/-- JavaScript `hay.includes(t)`: `t` occurs contiguously in `hay`. -/
def hasInfix (hay t : JStr) : Bool :=
  t.isPrefixOf hay ||
    match hay with
    | [] => false
    | _ :: r => hasInfix r t

/-- JavaScript `String.prototype.split(' ')` (split at every single space,
keeping empty pieces, as the built-in does). -/
def splitOnSpace : JStr → List JStr
  | [] => [[]]
  | n :: r =>
    if n == 32 then [] :: splitOnSpace r
    else
      match splitOnSpace r with
      | [] => [[n]]
      | w :: ws => (n :: w) :: ws

/-- stream.js `applyFilter`'s token computation:
`qnorm.length ? qnorm.split(' ') : []` applied to `normalize(query)`. -/
def searchTokens (query : JStr) : List JStr :=
  let qnorm := normalize query
  if qnorm.isEmpty then [] else splitOnSpace qnorm

/-! ## WHATWG URL model (browser `new URL(u, base)`)

Modelled: only the scheme-resolution part of URL parsing, which is all the
embedded code inspects (`x.protocol` tests, `u.pathname` suffix tests).
A `JsUrl` keeps its post-scheme remainder verbatim; real `href`
serialization canonicalizes further, but never changes the scheme. -/

/-- First code point of a URL scheme: an ASCII letter. -/
def isSchemeStartCode (n : Nat) : Bool :=
  (65 ≤ n && n ≤ 90) || (97 ≤ n && n ≤ 122)

/-- Subsequent code points of a URL scheme: letters, digits, `+` `.` `-`. -/
def isSchemeCode (n : Nat) : Bool :=
  isSchemeStartCode n || (48 ≤ n && n ≤ 57) || n == 43 || n == 46 || n == 45

/-- The scheme of `u` when `u` begins `scheme:`, otherwise `none`
(in which case the URL constructor falls back to the base URL). -/
def extractScheme (l : JStr) : Option JStr :=
  match l.span isSchemeCode with
  | (c :: pre, 58 :: _) => if isSchemeStartCode c then some (c :: pre) else none
  | _ => none

/-- A parsed URL: lower-cased scheme plus the verbatim remainder. -/
structure JsUrl where
  scheme : JStr
  rest : JStr
deriving DecidableEq, Repr

/-- `url.href` (serialization modelled as scheme ++ ":" ++ remainder). -/
def hrefOf (u : JsUrl) : JStr := u.scheme ++ 58 :: u.rest

/-- `new URL(u, base)`: a scheme-ful input keeps its own (lower-cased)
scheme; a scheme-less input resolves against the base, inheriting the base's
scheme (path merging is not modelled — nothing in the code reads it);
with no base, a scheme-less input throws (`none`). -/
def parseJsUrl (u : JStr) (base : Option JsUrl) : Option JsUrl :=
  match extractScheme u with
  | some s => some ⟨lowerAll s, u.drop (s.length + 1)⟩
  | none =>
    match base with
    | some b => some ⟨b.scheme, b.rest ++ 47 :: u⟩
    | none => none

/-- stream.js `safeHttpUrl`: resolve against the page URL, return the `href`
when the protocol is http(s), the empty string otherwise or on throw. -/
def safeHttpUrl (base : Option JsUrl) (u : JStr) : JStr :=
  match parseJsUrl u base with
  | some x =>
    if x.scheme == jstr "http" || x.scheme == jstr "https" then hrefOf x else []
  | none => []

/-- `url.pathname` of a parsed URL: for `//authority/path?query` forms, the
part from the first `/` after the authority up to `?` or `#`. -/
def pathnameOf (u : JsUrl) : JStr :=
  match u.rest with
  | 47 :: 47 :: r =>
    (r.dropWhile (fun c => !(c == 47) && !(c == 63) && !(c == 35))).takeWhile
      (fun c => !(c == 63) && !(c == 35))
  | r => r.takeWhile (fun c => !(c == 63) && !(c == 35))

/-- stream.js `isLikelyM3USource`: host parses as an absolute http(s) URL
whose pathname ends in `.m3u`/`.m3u8`, and no credentials are set. -/
def isLikelyM3USource (host user pass : JStr) : Bool :=
  match parseJsUrl host none with
  | none => false
  | some u =>
    let ext := lowerAll (pathnameOf u)
    (u.scheme == jstr "http" || u.scheme == jstr "https") &&
      ((jstr ".m3u").isSuffixOf ext || (jstr ".m3u8").isSuffixOf ext) &&
      (user.isEmpty && pass.isEmpty)

/-! ## M3U parser (stream.js `parseM3U`) -/

/-- A channel record as built by stream.js (playlist entries carry a direct
`url`; API entries leave it empty). -/
structure Channel where
  id : Int
  name : JStr
  category : JStr
  logo : Option JStr
  norm : JStr
  url : JStr
deriving DecidableEq, Repr

/-- `text.split(/\r?\n/)`. -/
def splitLines : JStr → List JStr
  | [] => [[]]
  | 13 :: 10 :: r => [] :: splitLines r
  | 10 :: r => [] :: splitLines r
  | c :: r =>
    match splitLines r with
    | [] => [[c]]
    | w :: ws => (c :: w) :: ws

/-- JavaScript `trim()`. -/
def trimJs (l : JStr) : JStr :=
  ((l.dropWhile isWs).reverse.dropWhile isWs).reverse

/-- `line.split(",").pop()`: the segment after the last comma. -/
def lastAfterComma (l : JStr) : JStr :=
  (l.reverse.takeWhile (fun n => !(n == 44))).reverse

/-- One attempted attribute match at the current position: the regex
`key="([^"]*)"` anchored here (case-insensitive key, closing quote
required). -/
def attrAt (key l : JStr) : Option JStr :=
  if lowerAll (l.take key.length) == lowerAll key &&
      [61, 34].isPrefixOf (l.drop key.length) then
    let rest := l.drop (key.length + 2)
    let cap := rest.takeWhile (fun n => !(n == 34))
    if cap.length < rest.length then some cap else none
  else none

/-- stream.js `readAttr`: first match of `key="([^"]*)"` in the line,
or the empty string. -/
def readAttr (key : JStr) : JStr → JStr
  | [] => []
  | l@(_ :: r) =>
    match attrAt key l with
    | some v => v
    | none => readAttr key r

/-- Metadata carried from an `#EXTINF` line to the following URL line. -/
structure Pending where
  name : JStr
  logo : JStr
  category : JStr
deriving DecidableEq, Repr

/-- The channel pushed for an accepted URL line. -/
def chanOfPending (p : Pending) (k : Nat) (url : JStr) : Channel :=
  { id := (k : Int)
    name := p.name
    category := p.category
    logo := if p.logo.isEmpty then none else some p.logo
    norm := normalize (p.name ++ 32 :: p.category)
    url := url }

/-- The metadata read off an `#EXTINF` line: display name after the last
comma (placeholder `Channel <idSeq>` when empty), `tvg-logo` and
`group-title` attributes (the latter defaulting to `Uncategorized`). -/
def pendingOfLine (line : JStr) (k : Nat) : Pending :=
  let nm := trimJs (lastAfterComma line)
  { name := if nm.isEmpty then jstr "Channel " ++ jstr (toString k) else nm
    logo := readAttr (jstr "tvg-logo") line
    category :=
      let g := readAttr (jstr "group-title") line
      if g.isEmpty then jstr "Uncategorized" else g }

/-- The parser loop of `parseM3U`: `pending` metadata and the next id. -/
def parseGo (base : Option JsUrl) : List JStr → Option Pending → Nat → List Channel
  | [], _, _ => []
  | line :: rest, pending, k =>
    if (jstr "#EXTINF").isPrefixOf line then
      parseGo base rest (some (pendingOfLine line k)) k
    else
      match pending with
      | some p =>
        if !line.isEmpty && !((jstr "#").isPrefixOf line) then
          let url := safeHttpUrl base (trimJs line)
          if url.isEmpty then parseGo base rest none k
          else chanOfPending p k url :: parseGo base rest none (k + 1)
        else parseGo base rest (some p) k
      | none => parseGo base rest none k

/-- stream.js `parseM3U` (the page URL `location.href` is the `base`
parameter; `safeHttpUrl` resolves relative URL lines against it). -/
def parseM3U (base : Option JsUrl) (text : JStr) : List Channel :=
  parseGo base (splitLines text) none 1

/-! ## Filtering (stream.js `applyFilter`) -/

/-- The per-channel predicate of `applyFilter`: active-category equality,
hidden-category set, then every token a substring of the precomputed key. -/
def channelMatches (activeCat : JStr) (hiddenCats : List JStr) (tokens : List JStr)
    (ch : Channel) : Bool :=
  if !activeCat.isEmpty && !(ch.category == activeCat) then false
  else if !ch.category.isEmpty && hiddenCats.contains ch.category then false
  else if tokens.isEmpty then true
  else tokens.all (fun t => hasInfix ch.norm t)

/-- stream.js `applyFilter`, as a function of the globals it reads
(`all`, `activeCat`, `hiddenCats`, the search box text): the list it mounts. -/
def applyFilter (all : List Channel) (activeCat : JStr) (hiddenCats : List JStr)
    (query : JStr) : List Channel :=
  all.filter (channelMatches activeCat hiddenCats (searchTokens query))

/-! ## Virtualized list renderer (stream.js `renderVirtual`) -/

/-- Fixed row height in pixels. -/
def ROW_H : Nat := 50

/-- Overscan row count. -/
def OVERSCAN : Nat := 8

/-- `Math.max(0, Math.floor(scrollTop / ROW_H) - OVERSCAN)`.
Scroll offsets are modelled in whole pixels; Nat subtraction saturates at
zero, implementing the `Math.max(0, ...)`. -/
def startIdx (scrollTop : Nat) : Nat := scrollTop / ROW_H - OVERSCAN

/-- `Math.min(filtered.length, Math.ceil((scrollTop + height) / ROW_H) + OVERSCAN)`
(`(x + 49) / 50` is the ceiling for whole-pixel values). -/
def endIdx (len scrollTop height : Nat) : Nat :=
  min len ((scrollTop + height + (ROW_H - 1)) / ROW_H + OVERSCAN)

instance : Inhabited Channel := ⟨{ id := 0, name := [], category := [], logo := none,
                                   norm := [], url := [] }⟩

/-- The render loop `for (let i = startIdx; i < endIdx; i++)`, returning the
built rows as (index, channel) pairs (the DOM construction per row is UI);
recursion is on the remaining row count `endIdx - i`. -/
def renderRows (filtered : List Channel) : Nat → Nat → List (Nat × Channel)
  | _, 0 => []
  | i, c + 1 => (i, filtered.getD i default) :: renderRows filtered (i + 1) c

/-- stream.js `renderVirtual`, as the list of rows it constructs. -/
def renderVirtual (filtered : List Channel) (scrollTop height : Nat) :
    List (Nat × Channel) :=
  renderRows filtered (startIdx scrollTop)
    (endIdx filtered.length scrollTop height - startIdx scrollTop)

/-! ## Catalog loading (stream.js `loadChannels`) -/

/-- Case-insensitive code-point order on strings.  Modelled:
`localeCompare(·, 'en', {sensitivity:'base'})`, a browser collator. -/
def lexLe : JStr → JStr → Bool
  | [], _ => true
  | _ :: _, [] => false
  | a :: as, b :: bs => a < b || (a == b && lexLe as bs)

/-- The sort comparator `(a, b) => a.name.localeCompare(b.name, ...) ` as a
le-test. -/
def nameLe (a b : Channel) : Bool := lexLe (lowerAll a.name) (lowerAll b.name)

/-- Stable insertion for `sortByName`. -/
def insertSorted (c : Channel) : List Channel → List Channel
  | [] => [c]
  | d :: r => if nameLe c d then c :: d :: r else d :: insertSorted c r

/-- Modelled: `Array.prototype.sort` (stable since ES2019) by name, as a
stable insertion sort. -/
def sortByName (l : List Channel) : List Channel := l.foldr insertSorted []

/-- A JS `Map` built from key/value pairs: later pairs shadow earlier ones. -/
def mapGet (m : List (JStr × JStr)) (k : JStr) : Option JStr :=
  (m.reverse.find? (fun p => p.1 == k)).map (fun p => p.2)

/-- One record of the `get_live_categories` response. -/
structure CatRecord where
  category_id : Option Int
  category_name : JStr
deriving DecidableEq, Repr

/-- The duck-typed shapes of the categories response:
an array, an object with a `categories` array, or anything else (→ `[]`). -/
inductive CatsShape where
  | arr (l : List CatRecord)
  | wrapped (l : List CatRecord)
  | other
deriving DecidableEq, Repr

/-- `Array.isArray(data) ? data : (Array.isArray(data?.categories) ? data.categories : [])`. -/
def catsArr : CatsShape → List CatRecord
  | .arr l => l
  | .wrapped l => l
  | .other => []

/-- `ensureCategoryMap`'s map construction: keep records with a non-null
`category_id`, keyed by `String(category_id)` with trimmed name.
A `none` shape models `r.json()` rejecting (caught, `data = []`). -/
def buildCatMap (shape : Option CatsShape) : List (JStr × JStr) :=
  (match shape with | some s => catsArr s | none => []).filterMap fun (c : CatRecord) =>
    match c.category_id with
    | some i => some (jstr (toString i), trimJs c.category_name)
    | none => none

/-- One record of the `get_live_streams` response.  `stream_id` is
`Number(ch.stream_id)` with `0` standing for the falsy results (absent,
`NaN`, `0`); string fields use `[]` for absent (`String(x || '')`). -/
structure StreamRecord where
  stream_id : Int
  name : JStr
  category_name : JStr
  category_ids : List Int
  category_id : Option Int
  stream_icon : Option JStr
deriving DecidableEq, Repr

/-- The duck-typed shapes of the streams response:
`Array.isArray(data) ? data : data?.streams || data?.results || []`. -/
inductive StreamsShape where
  | arr (l : List StreamRecord)
  | streams (l : List StreamRecord)
  | results (l : List StreamRecord)
  | other
deriving DecidableEq, Repr

def streamsArr : StreamsShape → List StreamRecord
  | .arr l => l
  | .streams l => l
  | .results l => l
  | .other => []

/-- The `for (const id of ids)` lookup: first non-empty mapped name, else
the empty string. -/
def firstLookup (catMap : List (JStr × JStr)) : List Int → JStr
  | [] => []
  | i :: r =>
    match mapGet catMap (jstr (toString i)) with
    | some n => if n.isEmpty then firstLookup catMap r else n
    | none => firstLookup catMap r

/-- The `.map((ch) => ...)` body of the API-mode load. -/
def mapStream (catMap : List (JStr × JStr)) (ch : StreamRecord) : Channel :=
  let name := ch.name
  let ids : List Int :=
    if !ch.category_ids.isEmpty then ch.category_ids
    else match ch.category_id with
         | some i => [i]
         | none => []
  let cat0 := trimJs ch.category_name
  let category :=
    if cat0.isEmpty && !ids.isEmpty && !catMap.isEmpty then firstLookup catMap ids
    else cat0
  { id := ch.stream_id
    name := name
    category := category
    logo := (match ch.stream_icon with
             | some s => if s.isEmpty then none else some s
             | none => none)
    norm := normalize (name ++ 32 :: category)
    url := [] }

/-- The user-visible list status line, coarsened to the states the claims
distinguish: loading, a channel count, or the failure message. -/
inductive ListStatus where
  | loading
  | counted (n : Nat) (m3u : Bool)
  | failed
deriving DecidableEq, Repr

/-- The module-level mutable state read and written by `loadChannels`. -/
structure AppState where
  all : List Channel
  filtered : List Channel
  direct : List (Int × JStr)
  categoryMap : Option (List (JStr × JStr))
  usingM3U : Bool
  status : ListStatus
deriving DecidableEq, Repr

/-- The credential fields `loadChannels` reads. -/
structure Creds where
  host : JStr
  user : JStr
  pass : JStr
deriving DecidableEq, Repr

/-- Outcome of one `xfetch`: the promise rejects (also covering a rejecting
body read), or a response with its `ok` flag and text body. -/
inductive FetchRes where
  | thrown
  | resp (ok : Bool) (body : JStr)
deriving DecidableEq, Repr

/-- The external world of one `loadChannels` call: the playlist fetch, the
categories fetch and its parsed shape (`none` = `r.json()` rejected), the
live-streams fetch and its parsed shape (`none` = `JSON.parse` threw). -/
structure World where
  m3uFetch : FetchRes
  catFetch : FetchRes
  catShape : Option CatsShape
  liveFetch : FetchRes
  liveShape : Option StreamsShape
deriving DecidableEq, Repr

/-- `indexDirectUrls`: reset, then record `id -> url` for items with a url. -/
def indexDirect (l : List Channel) : List (Int × JStr) :=
  l.filterMap fun ch => if ch.url.isEmpty then none else some (ch.id, ch.url)

/-- The `catch` block of `loadChannels`: error message shown,
`mountVirtualList([])` clears the displayed list.  (`all` is not touched.) -/
def failState (st : AppState) : AppState :=
  { st with status := .failed, filtered := [] }

/-- stream.js `loadChannels` as a state transformer over `AppState`,
parameterized by the page URL (base for relative playlist URLs), the
credentials it loads, and the fetch outcomes. -/
def loadChannels (pageUrl : Option JsUrl) (st0 : AppState) (c : Creds) (w : World) :
    AppState :=
  let m3u := isLikelyM3USource c.host c.user c.pass
  let st := { st0 with usingM3U := m3u, status := ListStatus.loading }
  if m3u then
    match w.m3uFetch with
    | .thrown => failState st
    | .resp ok body =>
      if ok then
        let items := (parseM3U pageUrl body).filter fun x =>
          !x.url.isEmpty && !x.name.isEmpty
        let sorted := sortByName items
        { st with all := sorted, filtered := sorted,
                  direct := indexDirect sorted, categoryMap := none,
                  status := .counted sorted.length true }
      else failState st
  else
    let catRes : Option (List (JStr × JStr)) :=
      match st0.categoryMap with
      | some m => some m
      | none =>
        match w.catFetch with
        | .thrown => none
        | .resp _ _ => some (buildCatMap w.catShape)
    match catRes with
    | none => failState st
    | some catMap =>
      let st := { st with categoryMap := some catMap }
      match w.liveFetch with
      | .thrown => failState st
      | .resp ok _ =>
        if !ok then failState st
        else
          match w.liveShape with
          | none => failState st
          | some shape =>
            let sorted := sortByName
              (((streamsArr shape).map (mapStream catMap)).filter fun x =>
                !(x.id == 0) && !x.name.isEmpty)
            { st with all := sorted, filtered := sorted, direct := [],
                      status := .counted sorted.length false }

/-! ## Same-origin relay (src/pages/api/proxy.ts `GET`) -/

/-- The upstream side of one relay call: the forwarded `fetch` rejects with
a message (any internal fault), or responds; `textFailed` models
`upstream.text()` rejecting on the failure path (caught, `""`). -/
inductive UpstreamOutcome where
  | thrown (msg : JStr)
  | resp (ok : Bool) (status : Nat) (body : JStr) (textFailed : Bool)
deriving DecidableEq, Repr

/-- A relay response, reduced to the fields the claims inspect. -/
structure ProxyResponse where
  status : Nat
  body : JStr
deriving DecidableEq, Repr

/-- proxy.ts `GET`, with `urlParam` the `?url=` query parameter
(`none` when absent; `!target` is also true for the empty string). -/
def proxyGET (urlParam : Option JStr) (up : UpstreamOutcome) : ProxyResponse :=
  if (urlParam.getD []).isEmpty then { status := 400, body := jstr "Missing ?url=" }
  else
    match up with
    | .thrown msg => { status := 502, body := jstr "Proxy error: " ++ msg }
    | .resp ok status body textFailed =>
      if ok then { status := status, body := body }
      else
        let t := if textFailed then [] else body
        { status := status
          body := if t.isEmpty then jstr "Upstream " ++ jstr (toString status) else t }

/-! ## Parser lemmas -/

theorem parseGo_nil (base : Option JsUrl) (p : Option Pending) (k : Nat) :
    parseGo base [] p k = [] := rfl

theorem parseGo_extinf {line : JStr} (h : (jstr "#EXTINF").isPrefixOf line = true)
    (base : Option JsUrl) (rest : List JStr) (p : Option Pending) (k : Nat) :
    parseGo base (line :: rest) p k = parseGo base rest (some (pendingOfLine line k)) k := by
  simp [parseGo, h]

theorem parseGo_none_step {line : JStr} (h : (jstr "#EXTINF").isPrefixOf line = false)
    (base : Option JsUrl) (rest : List JStr) (k : Nat) :
    parseGo base (line :: rest) none k = parseGo base rest none k := by
  simp [parseGo, h]

theorem parseGo_pending_skip {line : JStr} (h1 : (jstr "#EXTINF").isPrefixOf line = false)
    (h2 : (!line.isEmpty && !((jstr "#").isPrefixOf line)) = false)
    (base : Option JsUrl) (rest : List JStr) (p : Pending) (k : Nat) :
    parseGo base (line :: rest) (some p) k = parseGo base rest (some p) k := by
  simp [parseGo, h1, h2]

theorem parseGo_pending_reject {base : Option JsUrl} {line : JStr}
    (h1 : (jstr "#EXTINF").isPrefixOf line = false)
    (h2 : (!line.isEmpty && !((jstr "#").isPrefixOf line)) = true)
    (h3 : (safeHttpUrl base (trimJs line)).isEmpty = true)
    (rest : List JStr) (p : Pending) (k : Nat) :
    parseGo base (line :: rest) (some p) k = parseGo base rest none k := by
  simp [parseGo, h1, h2, h3]

theorem parseGo_pending_accept {base : Option JsUrl} {line : JStr}
    (h1 : (jstr "#EXTINF").isPrefixOf line = false)
    (h2 : (!line.isEmpty && !((jstr "#").isPrefixOf line)) = true)
    (h3 : (safeHttpUrl base (trimJs line)).isEmpty = false)
    (rest : List JStr) (p : Pending) (k : Nat) :
    parseGo base (line :: rest) (some p) k =
      chanOfPending p k (safeHttpUrl base (trimJs line)) :: parseGo base rest none (k + 1) := by
  simp [parseGo, h1, h2, h3]

theorem ne_nil_of_isEmpty_false {α : Type} {l : List α} (h : l.isEmpty = false) :
    l ≠ [] := by
  cases l with
  | nil => simp at h
  | cons a r => exact List.cons_ne_nil a r

/-- Whatever `safeHttpUrl` returns is empty or an `http:`/`https:` URL. -/
theorem safeHttpUrl_shape (b : Option JsUrl) (u : JStr) :
    safeHttpUrl b u = [] ∨
      ∃ r, safeHttpUrl b u = jstr "http" ++ 58 :: r ∨
           safeHttpUrl b u = jstr "https" ++ 58 :: r := by
  unfold safeHttpUrl
  cases parseJsUrl u b with
  | none => exact Or.inl rfl
  | some x =>
    cases hh : x.scheme == jstr "http" with
    | true =>
      have hx : x.scheme = jstr "http" := by simpa using hh
      refine Or.inr ⟨x.rest, Or.inl ?_⟩
      simp [hh, hrefOf, hx]
    | false =>
      cases hs : x.scheme == jstr "https" with
      | true =>
        have hx : x.scheme = jstr "https" := by simpa using hs
        refine Or.inr ⟨x.rest, Or.inr ?_⟩
        simp [hh, hs, hrefOf, hx]
      | false => exact Or.inl (by simp [hh, hs])

theorem pendingOfLine_name_ne_nil (line : JStr) (k : Nat) :
    (pendingOfLine line k).name ≠ [] := by
  unfold pendingOfLine
  cases h : (trimJs (lastAfterComma line)).isEmpty with
  | true =>
    simp only [h, if_true]
    intro hc
    have hlen := congrArg List.length hc
    simp only [List.length_append, List.length_nil] at hlen
    have h8 : (jstr "Channel ").length = 8 := by decide
    omega
  | false =>
    simp only [h, if_false]
    exact ne_nil_of_isEmpty_false h

/-- Entries produced by the parser loop: non-empty names, http(s) URLs, and
ids numbered consecutively from `k` in order. -/
theorem parseGo_entries (base : Option JsUrl) (lines : List JStr) :
    ∀ (p : Option Pending) (k : Nat), (∀ q, p = some q → q.name ≠ []) →
      (∀ e ∈ parseGo base lines p k,
          e.name ≠ [] ∧
          ∃ r, e.url = jstr "http" ++ 58 :: r ∨ e.url = jstr "https" ++ 58 :: r) ∧
      (parseGo base lines p k).map (fun e => e.id) =
        (List.range' k (parseGo base lines p k).length).map Int.ofNat := by
  induction lines with
  | nil =>
    intro p k _
    refine ⟨?_, ?_⟩
    · intro e he
      rw [parseGo_nil] at he
      cases he
    · rw [parseGo_nil]
      rfl
  | cons line rest ih =>
    intro p k hp
    cases hext : (jstr "#EXTINF").isPrefixOf line with
    | true =>
      rw [parseGo_extinf hext]
      exact ih _ k (fun q hq => by
        cases hq
        exact pendingOfLine_name_ne_nil line k)
    | false =>
      cases p with
      | none =>
        rw [parseGo_none_step hext]
        exact ih none k (by intro q hq; cases hq)
      | some pd =>
        cases hcand : (!line.isEmpty && !((jstr "#").isPrefixOf line)) with
        | false =>
          rw [parseGo_pending_skip hext hcand]
          exact ih (some pd) k hp
        | true =>
          cases hurl : (safeHttpUrl base (trimJs line)).isEmpty with
          | true =>
            rw [parseGo_pending_reject hext hcand hurl]
            exact ih none k (by intro q hq; cases hq)
          | false =>
            rw [parseGo_pending_accept hext hcand hurl]
            obtain ⟨ihA, ihB⟩ := ih none (k + 1) (by intro q hq; cases hq)
            constructor
            · intro e he
              rcases List.mem_cons.mp he with he | he
              · subst he
                constructor
                · exact hp pd rfl
                · rcases safeHttpUrl_shape base (trimJs line) with hnil | ⟨r, hr⟩
                  · rw [hnil] at hurl
                    simp at hurl
                  · exact ⟨r, hr⟩
              · exact ihA e he
            · simp only [List.map_cons, List.length_cons, ihB, chanOfPending]
              rw [List.range'_succ]
              simp

/-- Lines the parser passes over without changing its state: empty lines and
comment lines other than `#EXTINF` metadata lines. -/
def isSkippable (l : JStr) : Bool :=
  l.isEmpty || ((jstr "#").isPrefixOf l && !((jstr "#EXTINF").isPrefixOf l))

theorem parseGo_skip_one {l : JStr} (h : isSkippable l = true)
    (base : Option JsUrl) (rest : List JStr) (p : Option Pending) (k : Nat) :
    parseGo base (l :: rest) p k = parseGo base rest p k := by
  unfold isSkippable at h
  rw [Bool.or_eq_true] at h
  rcases h with hemp | hcase
  · have hl : l = [] := List.isEmpty_iff.mp hemp
    subst hl
    have hext : (jstr "#EXTINF").isPrefixOf ([] : JStr) = false := by decide
    cases p with
    | none => exact parseGo_none_step hext base rest k
    | some pd =>
      exact parseGo_pending_skip hext (by decide) base rest pd k
  · rw [Bool.and_eq_true] at hcase
    obtain ⟨hh, hnot⟩ := hcase
    have hext : (jstr "#EXTINF").isPrefixOf l = false := by simpa using hnot
    cases p with
    | none => exact parseGo_none_step hext base rest k
    | some pd =>
      exact parseGo_pending_skip hext (by simp [hh]) base rest pd k

theorem parseGo_skip_append {sep : List JStr} (h : ∀ l ∈ sep, isSkippable l = true)
    (base : Option JsUrl) (rest : List JStr) (p : Option Pending) (k : Nat) :
    parseGo base (sep ++ rest) p k = parseGo base rest p k := by
  induction sep with
  | nil => rfl
  | cons l sep ih =>
    rw [List.cons_append, parseGo_skip_one (h l (List.mem_cons_self _ _))]
    exact ih (fun x hx => h x (List.mem_cons_of_mem _ hx))

theorem parseGo_no_meta {lines : List JStr}
    (h : ∀ l ∈ lines, (jstr "#EXTINF").isPrefixOf l = false)
    (base : Option JsUrl) (k : Nat) :
    parseGo base lines none k = [] := by
  induction lines with
  | nil => rfl
  | cons l lines ih =>
    rw [parseGo_none_step (h l (List.mem_cons_self _ _))]
    exact ih (fun x hx => h x (List.mem_cons_of_mem _ hx))

/-! ## Filtering lemmas -/

theorem channelMatches_no_cat (tokens : List JStr) (ch : Channel) :
    channelMatches [] [] tokens ch = true ↔
      ∀ t ∈ tokens, hasInfix ch.norm t = true := by
  unfold channelMatches
  simp only [List.isEmpty_nil, Bool.not_true, Bool.false_and, Bool.false_eq_true,
    if_false, List.contains_nil, Bool.and_false]
  cases tokens with
  | nil => simp
  | cons t ts => simp [List.all_eq_true]

theorem channelMatches_tokens_perm (ac : JStr) (hc : List JStr) {t1 t2 : List JStr}
    (hp : t1.Perm t2) (ch : Channel) :
    channelMatches ac hc t1 ch = channelMatches ac hc t2 ch := by
  unfold channelMatches
  have hie : t1.isEmpty = t2.isEmpty := by
    have hlen := hp.length_eq
    cases t1 <;> cases t2 <;> simp_all
  have hall : t1.all (fun t => hasInfix ch.norm t) =
      t2.all (fun t => hasInfix ch.norm t) := by
    cases h1 : t1.all (fun t => hasInfix ch.norm t) with
    | true =>
      symm
      rw [List.all_eq_true] at h1 ⊢
      exact fun x hx => h1 x (hp.mem_iff.mpr hx)
    | false =>
      cases h2 : t2.all (fun t => hasInfix ch.norm t) with
      | false => rfl
      | true =>
        rw [List.all_eq_true] at h2
        have hx : t1.all (fun t => hasInfix ch.norm t) = true :=
          List.all_eq_true.mpr (fun x hx => h2 x (hp.mem_iff.mp hx))
        rw [h1] at hx
        cases hx
  rw [hie, hall]

theorem channelMatches_trivial (ch : Channel) :
    channelMatches [] [] [] ch = true := by
  simp [channelMatches]

/-! ## Renderer lemmas -/

theorem renderRows_map_fst (filtered : List Channel) :
    ∀ (c i : Nat), (renderRows filtered i c).map Prod.fst = List.range' i c := by
  intro c
  induction c with
  | zero => intro i; rfl
  | succ m ihm =>
    intro i
    rw [renderRows, List.map_cons, ihm (i + 1), List.range'_succ]

/-! ## Loader lemmas -/

/-- Every run of `loadChannels` either succeeds (non-failure status) or
lands in the `catch` block, which leaves `all` untouched and clears only the
displayed filtered list. -/
theorem loadChannels_cases (pageUrl : Option JsUrl) (st : AppState) (c : Creds)
    (w : World) :
    (loadChannels pageUrl st c w).status ≠ .failed ∨
      ((loadChannels pageUrl st c w).all = st.all ∧
        (loadChannels pageUrl st c w).filtered = []) := by
  cases hm : isLikelyM3USource c.host c.user c.pass with
  | true =>
    cases hw : w.m3uFetch with
    | thrown =>
      right
      constructor <;> simp [loadChannels, hm, hw, failState]
    | resp ok body =>
      cases ok with
      | true => left; simp [loadChannels, hm, hw]
      | false =>
        right
        constructor <;> simp [loadChannels, hm, hw, failState]
  | false =>
    cases hlf : w.liveFetch with
    | thrown =>
      cases hcm : st.categoryMap with
      | none =>
        cases hcf : w.catFetch with
        | thrown =>
          right
          constructor <;> simp [loadChannels, hm, hcm, hcf, failState]
        | resp ok2 body2 =>
          right
          constructor <;> simp [loadChannels, hm, hcm, hcf, hlf, failState]
      | some m =>
        right
        constructor <;> simp [loadChannels, hm, hcm, hlf, failState]
    | resp ok3 body3 =>
      cases hcm : st.categoryMap with
      | none =>
        cases hcf : w.catFetch with
        | thrown =>
          right
          constructor <;> simp [loadChannels, hm, hcm, hcf, failState]
        | resp ok2 body2 =>
          cases ok3 with
          | false =>
            right
            constructor <;> simp [loadChannels, hm, hcm, hcf, hlf, failState]
          | true =>
            cases hls : w.liveShape with
            | none =>
              right
              constructor <;> simp [loadChannels, hm, hcm, hcf, hlf, hls, failState]
            | some shape =>
              left
              simp [loadChannels, hm, hcm, hcf, hlf, hls]
      | some m =>
        cases ok3 with
        | false =>
          right
          constructor <;> simp [loadChannels, hm, hcm, hlf, failState]
        | true =>
          cases hls : w.liveShape with
          | none =>
            right
            constructor <;> simp [loadChannels, hm, hcm, hlf, hls, failState]
          | some shape =>
            left
            simp [loadChannels, hm, hcm, hlf, hls]

/-! ## Concrete fixtures for witnesses and counterexamples -/

/-- A channel left over from an earlier successful load. -/
def chStale : Channel :=
  { id := 7, name := jstr "Old", category := [], logo := none,
    norm := jstr "old", url := [] }

/-- App state after a successful API load of one channel. -/
def stStale : AppState :=
  { all := [chStale], filtered := [chStale], direct := [],
    categoryMap := some [], usingM3U := false, status := .counted 1 false }

/-- Credentials that select API mode (host is not an M3U URL). -/
def credsApi : Creds := { host := [], user := [], pass := [] }

/-- A world where every network request fails. -/
def worldDown : World :=
  { m3uFetch := .thrown, catFetch := .thrown, catShape := none,
    liveFetch := .thrown, liveShape := none }

/-- A playlist with two valid entries and one rejected URL line. -/
def m3uSample : JStr :=
  jstr "#EXTINF:-1 tvg-logo=\"http://x/l.png\" group-title=\"News\",BBC One\nhttp://example.com/bbc.m3u8\nnotaurl\n#EXTINF:-1,Two\nhttps://e.com/2.ts"

/-- A catalog entry whose normalized key contains `bbc` and `news`. -/
def chBbc : Channel :=
  { id := 1, name := jstr "BBC News", category := jstr "News", logo := none,
    norm := jstr "bbc news news", url := [] }

/-- A one-row list for the renderer witness. -/
def chRow : Channel :=
  { id := 3, name := jstr "A", category := [], logo := none,
    norm := jstr "a", url := [] }

/-- The page URL of the deployed site (scheme `https`). -/
def pageHttps : JsUrl := ⟨jstr "https", jstr "//app.example/index.html"⟩

/-- A playlist whose URL line is relative. -/
def relListing : JStr := jstr "#EXTINF:-1,Name\nvideo/stream.m3u8"

/-- A playlist with a blank line between the metadata and the URL line. -/
def gapListing : JStr := jstr "#EXTINF:-1,Name\n\nhttp://example.com/s.ts"

/-- Pending metadata for the parser-policy witness. -/
def pendW : Pending := ⟨jstr "Name", [], jstr "Uncategorized"⟩

/-! ## Claims -/

/-- C1, counterexample: a failed load does not empty the catalog.  With a
previously loaded catalog and every request failing, `loadChannels` reaches
the catch block (status `failed`), yet `all` still holds the stale channel:
the claim that after a failed load "the in-memory channel list `all` is
empty" and "no stale previous catalog is retained" is false. -/
theorem loadChannels_failure_keeps_stale_all :
    (loadChannels none stStale credsApi worldDown).status = .failed ∧
    (loadChannels none stStale credsApi worldDown).all ≠ [] := by decide

/-- C1, amended: if a load fails (any network failure, non-success status,
or malformed body lands it in the catch block, status `failed`), the error
state is shown and the displayed filtered list is cleared, but the
in-memory catalog `all` is left exactly as it was before the load — it is
empty only if no prior successful load had populated it. -/
theorem loadChannels_failure_state (pageUrl : Option JsUrl) (st : AppState)
    (c : Creds) (w : World)
    (h : (loadChannels pageUrl st c w).status = .failed) :
    (loadChannels pageUrl st c w).all = st.all ∧
    (loadChannels pageUrl st c w).filtered = [] := by
  rcases loadChannels_cases pageUrl st c w with hne | hok
  · exact absurd h hne
  · exact hok

/-- Witness for the amended C1 theorem at a concrete failing load. -/
theorem loadChannels_failure_state_witness :
    (loadChannels none stStale credsApi worldDown).status = .failed ∧
    ((loadChannels none stStale credsApi worldDown).all = stStale.all ∧
      (loadChannels none stStale credsApi worldDown).filtered = []) :=
  ⟨by decide, loadChannels_failure_state none stStale credsApi worldDown (by decide)⟩

/-- C2: every entry emitted by the playlist parser has a non-empty name and
a URL whose scheme is `http` or `https`, and the entries carry ids
`1..N` sequentially in file order (no gaps, no repeats). -/
theorem parseM3U_entries_spec (base : Option JsUrl) (text : JStr) :
    (∀ e ∈ parseM3U base text,
        e.name ≠ [] ∧
        ∃ r, e.url = jstr "http" ++ 58 :: r ∨ e.url = jstr "https" ++ 58 :: r) ∧
    (parseM3U base text).map (fun e => e.id) =
      (List.range' 1 (parseM3U base text).length).map Int.ofNat := by
  unfold parseM3U
  exact parseGo_entries base (splitLines text) none 1 (by intro q hq; cases hq)

/-- Witness for C2 on a concrete playlist: two entries, ids `[1, 2]`. -/
theorem parseM3U_entries_spec_witness :
    (parseM3U none m3uSample).length = 2 ∧
    (parseM3U none m3uSample).map (fun e => e.id) =
      (List.range' 1 (parseM3U none m3uSample).length).map Int.ofNat :=
  ⟨by decide, (parseM3U_entries_spec none m3uSample).2⟩

/-- C3: with no active category and no hidden categories, a catalog channel
appears in the filtered view iff every token of the normalized query is a
substring of its precomputed normalized key; queries whose token lists are
permutations of each other produce identical result lists. -/
theorem applyFilter_search_semantics (all : List Channel) (ch : Channel)
    (q q1 q2 : JStr) (hperm : (searchTokens q1).Perm (searchTokens q2)) :
    (ch ∈ applyFilter all [] [] q ↔
      ch ∈ all ∧ ∀ t ∈ searchTokens q, hasInfix ch.norm t = true) ∧
    applyFilter all [] [] q1 = applyFilter all [] [] q2 := by
  constructor
  · unfold applyFilter
    rw [List.mem_filter]
    constructor
    · rintro ⟨hmem, hmatch⟩
      exact ⟨hmem, (channelMatches_no_cat _ ch).mp hmatch⟩
    · rintro ⟨hmem, hforall⟩
      exact ⟨hmem, (channelMatches_no_cat _ ch).mpr hforall⟩
  · unfold applyFilter
    exact List.filter_congr (fun x _ => channelMatches_tokens_perm [] [] hperm x)

/-- Witness for C3: `"bbc news"` and `"news bbc"` tokenize to permutations
and filter a concrete catalog identically. -/
theorem applyFilter_search_semantics_witness :
    (searchTokens (jstr "bbc news")).Perm (searchTokens (jstr "news bbc")) ∧
    applyFilter [chBbc] [] [] (jstr "bbc news") =
      applyFilter [chBbc] [] [] (jstr "news bbc") :=
  ⟨by decide, (applyFilter_search_semantics [chBbc] chBbc (jstr "bbc")
      (jstr "bbc news") (jstr "news bbc") (by decide)).2⟩

/-- C4: for every filtered list, scroll offset and viewport height, the
virtualized renderer renders exactly the row indices in
`[startIndex, endIndex)` with `startIndex = max(0, ⌊scrollTop/50⌋ - 8)` and
`endIndex = min(length, ⌈(scrollTop+height)/50⌉ + 8)` (Nat subtraction is
the `max(0,·)`), and every row geometrically visible in the viewport is
among them. -/
theorem renderVirtual_window (filtered : List Channel) (s h : Nat) :
    (renderVirtual filtered s h).map Prod.fst =
      List.range' (s / 50 - 8)
        (min filtered.length ((s + h + 49) / 50 + 8) - (s / 50 - 8)) ∧
    ∀ i, i < filtered.length → i * 50 < s + h → s < (i + 1) * 50 →
      i ∈ (renderVirtual filtered s h).map Prod.fst := by
  have hmap : (renderVirtual filtered s h).map Prod.fst =
      List.range' (startIdx s) (endIdx filtered.length s h - startIdx s) :=
    renderRows_map_fst filtered _ _
  have hstart : startIdx s = s / 50 - 8 := rfl
  have hend : endIdx filtered.length s h =
      min filtered.length ((s + h + 49) / 50 + 8) := rfl
  constructor
  · rw [hmap, hstart, hend]
  · intro i hlen hvis1 hvis2
    rw [hmap, List.mem_range'_1]
    have h1 : s / 50 < i + 1 := (Nat.div_lt_iff_lt_mul (by norm_num)).mpr hvis2
    have h2 : i + 1 ≤ (s + h + 49) / 50 :=
      (Nat.le_div_iff_mul_le (by norm_num)).mpr (by omega)
    have h3 : i < endIdx filtered.length s h := by
      rw [hend]
      exact lt_min hlen (by omega)
    have h4 : startIdx s ≤ i := by
      rw [hstart]; omega
    exact ⟨h4, by omega⟩

/-- Witness for C4: at scroll 0 and viewport height 10 over a one-row list
the rendered window is exactly `[0, 1)`, and the visible row 0 is in it. -/
theorem renderVirtual_window_witness :
    ((renderVirtual [chRow] 0 10).map Prod.fst =
      List.range' (0 / 50 - 8)
        (min [chRow].length ((0 + 10 + 49) / 50 + 8) - (0 / 50 - 8))) ∧
    0 ∈ (renderVirtual [chRow] 0 10).map Prod.fst :=
  ⟨(renderVirtual_window [chRow] 0 10).1,
   (renderVirtual_window [chRow] 0 10).2 0 (by decide) (by decide) (by decide)⟩

/-- C5: `normalize` is idempotent — `normalize (normalize s) = normalize s`
for every string — and it is a total function returning the empty string on
empty input (totality is by construction of the Lean function). -/
theorem normalize_idempotent_total (l : JStr) :
    normalize (normalize l) = normalize l ∧ normalize ([] : JStr) = [] :=
  ⟨normalize_normalize l, rfl⟩

/-- C6, counterexample: a URL line that is not an absolute URL (it has no
scheme) is still accepted when the page URL is http(s), because
`safeHttpUrl` resolves it against `location.href`: the playlist with the
relative line `video/stream.m3u8` yields one entry, not zero. -/
theorem parseM3U_accepts_relative_url :
    extractScheme (jstr "video/stream.m3u8") = none ∧
    (parseM3U (some pageHttps) relListing).length = 1 := by decide

/-- C6, amended: a candidate URL line is accepted iff resolving it against
the page URL yields scheme `http` or `https`: an absolute URL is accepted
exactly when its own (lower-cased) scheme is http(s) — so `ftp:` and other
schemes are rejected — while a relative URL is accepted exactly when the
page URL itself is http(s). -/
theorem safeHttpUrl_accepted_iff (base : Option JsUrl) (u : JStr) :
    safeHttpUrl base u ≠ [] ↔
      (match extractScheme u with
       | some s => lowerAll s = jstr "http" ∨ lowerAll s = jstr "https"
       | none => ∃ b, base = some b ∧
           (b.scheme = jstr "http" ∨ b.scheme = jstr "https")) := by
  unfold safeHttpUrl parseJsUrl
  cases hx : extractScheme u with
  | some s =>
    cases hb1 : lowerAll s == jstr "http" with
    | true =>
      have hsch : lowerAll s = jstr "http" := by simpa using hb1
      simp [hb1, hsch, hrefOf]
    | false =>
      cases hb2 : lowerAll s == jstr "https" with
      | true =>
        have hsch : lowerAll s = jstr "https" := by simpa using hb2
        simp [hb1, hb2, hsch, hrefOf]
      | false =>
        have hne1 : lowerAll s ≠ jstr "http" := by simpa using hb1
        have hne2 : lowerAll s ≠ jstr "https" := by simpa using hb2
        simp [hb1, hb2, hne1, hne2]
  | none =>
    cases base with
    | none => simp
    | some b =>
      cases hb1 : b.scheme == jstr "http" with
      | true =>
        have hsch : b.scheme = jstr "http" := by simpa using hb1
        simp [hb1, hsch, hrefOf]
      | false =>
        cases hb2 : b.scheme == jstr "https" with
        | true =>
          have hsch : b.scheme = jstr "https" := by simpa using hb2
          simp [hb1, hb2, hsch, hrefOf]
        | false =>
          have hne1 : b.scheme ≠ jstr "http" := by simpa using hb1
          have hne2 : b.scheme ≠ jstr "https" := by simpa using hb2
          simp [hb1, hb2, hne1, hne2]

/-- Witness for the amended C6 theorem: an `ftp:` URL is rejected. -/
theorem safeHttpUrl_accepted_iff_witness :
    ¬ (safeHttpUrl none (jstr "ftp://example.com/bbc") ≠ []) :=
  fun hne =>
    match (safeHttpUrl_accepted_iff none (jstr "ftp://example.com/bbc")).mp hne with
    | Or.inl hl => absurd hl (by decide)
    | Or.inr hr => absurd hr (by decide)

/-- C7, counterexample: the stream-URL line need not immediately follow the
metadata line — here an empty line sits between them (line 1 of the split
is empty), yet one entry is still emitted where the claim demands none. -/
theorem parseM3U_emits_across_blank_line :
    (splitLines gapListing)[1]? = some [] ∧
    (parseM3U none gapListing).length = 1 := by decide

theorem extinf_prefix_false_of_hash {line : JStr}
    (h : ((jstr "#").isPrefixOf line) = false) :
    (jstr "#EXTINF").isPrefixOf line = false := by
  cases hq : (jstr "#EXTINF").isPrefixOf line with
  | false => rfl
  | true =>
    exfalso
    have hsplit : jstr "#EXTINF" = 35 :: jstr "EXTINF" := by decide
    have hone : jstr "#" = [35] := by decide
    rw [hsplit] at hq
    rw [hone] at h
    cases line with
    | nil => simp [List.isPrefixOf] at hq
    | cons b bs =>
      simp only [List.isPrefixOf, Bool.and_eq_true] at hq
      simp only [List.isPrefixOf, Bool.and_eq_false_iff] at h
      rcases h with h | h
      · rw [hq.1] at h
        cases h
      · simp [List.isPrefixOf] at h

/-- C7, amended: empty lines and non-`#EXTINF` comment lines between a
metadata line and its URL line are skipped without clearing the pending
metadata (so the URL line need not be adjacent); lines containing no
metadata line while no metadata is pending yield no entries; pending
metadata followed only by skippable lines yields no entry; and the first
candidate line (non-empty, not starting with `#`) consumes the pending
metadata whether or not its URL is accepted — emitting exactly one entry
with that URL when it is accepted and none when it is rejected. -/
theorem parseM3U_line_policy (base : Option JsUrl) (sep rest lines : List JStr)
    (line : JStr) (p : Option Pending) (pd : Pending) (k : Nat)
    (hsep : ∀ l ∈ sep, isSkippable l = true)
    (hmeta : ∀ l ∈ lines, (jstr "#EXTINF").isPrefixOf l = false)
    (hcand : (!line.isEmpty && !((jstr "#").isPrefixOf line)) = true) :
    parseGo base (sep ++ rest) p k = parseGo base rest p k ∧
    parseGo base lines none k = [] ∧
    parseGo base sep p k = [] ∧
    ((safeHttpUrl base (trimJs line)).isEmpty = false →
      parseGo base (line :: rest) (some pd) k =
        chanOfPending pd k (safeHttpUrl base (trimJs line)) ::
          parseGo base rest none (k + 1)) ∧
    ((safeHttpUrl base (trimJs line)).isEmpty = true →
      parseGo base (line :: rest) (some pd) k = parseGo base rest none k) := by
  have hhash : ((jstr "#").isPrefixOf line) = false := by
    rw [Bool.and_eq_true] at hcand
    simpa using hcand.2
  have hext : (jstr "#EXTINF").isPrefixOf line = false :=
    extinf_prefix_false_of_hash hhash
  refine ⟨parseGo_skip_append hsep base rest p k, parseGo_no_meta hmeta base k,
    ?_, ?_, ?_⟩
  · have h1 := parseGo_skip_append hsep base [] p k
    rw [List.append_nil] at h1
    rw [h1]
    rfl
  · intro hacc
    exact parseGo_pending_accept hext hcand hacc rest pd k
  · intro hrej
    exact parseGo_pending_reject hext hcand hrej rest pd k

/-- Witness for the amended C7 theorem on concrete lines: skippable lines
are transparent, metadata-free input with no pending yields nothing,
skippables alone consume nothing, an accepted candidate emits one entry,
and a rejected candidate consumes the pending metadata without emitting. -/
theorem parseM3U_line_policy_witness :
    parseGo none ([[], jstr "#EXTGRP:x"] ++ [jstr "http://e/x.ts"]) (some pendW) 1 =
      parseGo none [jstr "http://e/x.ts"] (some pendW) 1 ∧
    parseGo none [jstr "http://a"] none 1 = [] ∧
    parseGo none [[], jstr "#EXTGRP:x"] (some pendW) 1 = [] ∧
    parseGo none (jstr "http://e/x.ts" :: [jstr "http://e/x.ts"]) (some pendW) 1 =
      chanOfPending pendW 1 (safeHttpUrl none (trimJs (jstr "http://e/x.ts"))) ::
        parseGo none [jstr "http://e/x.ts"] none 2 ∧
    parseGo none [jstr "notaurl"] (some pendW) 1 = parseGo none [] none 1 := by
  have hA := parseM3U_line_policy none [[], jstr "#EXTGRP:x"] [jstr "http://e/x.ts"]
    [jstr "http://a"] (jstr "http://e/x.ts") (some pendW) pendW 1
    (by decide) (by decide) (by decide)
  have hB := parseM3U_line_policy none [] [] [] (jstr "notaurl") (some pendW) pendW 1
    (by decide) (by decide) (by decide)
  exact ⟨hA.1, hA.2.1, hA.2.2.1, hA.2.2.2.1 (by decide), hB.2.2.2.2 (by decide)⟩

/-- C8: with no active category, no hidden categories and empty query text,
the filtered view is the whole catalog, element for element, in order. -/
theorem applyFilter_no_filters_id (all : List Channel) :
    applyFilter all [] [] [] = all := by
  unfold applyFilter
  rw [show searchTokens ([] : JStr) = [] from rfl]
  exact List.filter_eq_self.mpr (fun ch _ => channelMatches_trivial ch)

/-- C9, counterexample: the 502 body on an internal fault is not a fixed
text — it embeds the fault's message, so two different faults produce two
different bodies (the status, 502, is fixed). -/
theorem proxy_error_body_not_fixed :
    (proxyGET (some (jstr "u")) (.thrown (jstr "a"))).body ≠
      (proxyGET (some (jstr "u")) (.thrown (jstr "b"))).body ∧
    (proxyGET (some (jstr "u")) (.thrown (jstr "a"))).status = 502 ∧
    (proxyGET (some (jstr "u")) (.thrown (jstr "b"))).status = 502 := by decide

/-- C9, amended: a request with no `url` parameter gets status 400 with the
literal body `Missing ?url=`; any internal fault gets the fixed status 502
with a textual body `Proxy error: ` followed by the fault's message (the
prefix and status are fixed, the message varies). -/
theorem proxyGET_responses (u msg : JStr) (up : UpstreamOutcome) (hu : u ≠ []) :
    proxyGET none up = ⟨400, jstr "Missing ?url="⟩ ∧
    proxyGET (some u) (.thrown msg) = ⟨502, jstr "Proxy error: " ++ msg⟩ := by
  constructor
  · rfl
  · have hne : u.isEmpty = false := by
      cases u with
      | nil => exact absurd rfl hu
      | cons a r => rfl
    unfold proxyGET
    simp [hne]

/-- Witness for the amended C9 theorem at a concrete request. -/
theorem proxyGET_responses_witness :
    jstr "http://a" ≠ [] ∧
    (proxyGET none (.thrown (jstr "x")) = ⟨400, jstr "Missing ?url="⟩ ∧
      proxyGET (some (jstr "http://a")) (.thrown (jstr "x")) =
        ⟨502, jstr "Proxy error: " ++ jstr "x"⟩) :=
  ⟨by decide, proxyGET_responses (jstr "http://a") (jstr "x")
      (.thrown (jstr "x")) (by decide)⟩

/-- C10: for every catalog and every filter state, the filtered view is an
order-preserving subsequence of the catalog (every element occurs in the
catalog, in the same relative order, each occurrence used at most once). -/
theorem applyFilter_sublist_catalog (all : List Channel) (activeCat : JStr)
    (hiddenCats : List JStr) (query : JStr) :
    (applyFilter all activeCat hiddenCats query).Sublist all :=
  List.filter_sublist all

end Xtream
